import Mathlib

/-!
Verification of the grid partition engine of the image-splitting tool
(src/image_splitter.rs and the delete-selected-lines handler of src/app.rs).

Modeling conventions:
* Rust f32 split-line positions are modeled as exact rationals; the
  truncating cast of a non-negative float product to u32 is modeled as
  Int.toNat of the floor (for negative values both saturate to 0).
* u32 subtraction is modeled as checked subtraction returning Option:
  an underflow is a panic in the Rust source, so split_image returns
  none exactly when a boundary subtraction would underflow.
* The filesystem and codec collaborators are an oracle Env; rayon's
  par_iter processes items in an arbitrary completion order, modeled by
  an explicit schedule list (a permutation of the item indices); the two
  atomic counters commute, so any linearization yields the same counts.
* Each run produces an event trace (decode attempts, write attempts,
  progress callbacks) so that claims about what is or is not invoked
  can be stated observationally.
-/

/-- Split configuration: src/image_splitter.rs, struct SplitConfig. -/
structure SplitConfig where
  rows : Nat
  cols : Nat
  h_lines : List ℚ
  v_lines : List ℚ
deriving Repr, DecidableEq

/-- Default for SplitConfig (impl Default). -/
def SplitConfig.default : SplitConfig :=
  { rows := 1, cols := 1, h_lines := [], v_lines := [] }

/-- SplitConfig::reset_to_default: evenly spaced lines recomputed from rows/cols.
mkRat i rows is the rational i / rows (stated as a division by
SplitConfig.reset_to_default_h below). -/
def SplitConfig.reset_to_default (c : SplitConfig) : SplitConfig :=
  { c with
    h_lines := (List.range' 1 (c.rows - 1)).map (fun i : Nat => mkRat (i : Int) c.rows),
    v_lines := (List.range' 1 (c.cols - 1)).map (fun i : Nat => mkRat (i : Int) c.cols) }

/-- SplitConfig::new: start from empty lines, then reset_to_default. -/
def SplitConfig.new (rows cols : Nat) : SplitConfig :=
  SplitConfig.reset_to_default { rows := rows, cols := cols, h_lines := [], v_lines := [] }

/-- SplitConfig::is_valid. -/
def SplitConfig.is_valid (c : SplitConfig) : Bool :=
  c.h_lines.length == c.rows - 1 && c.v_lines.length == c.cols - 1

/-- A decoded image, reduced to its pixel dimensions (the pixel payload is
irrelevant to every claim about the partition geometry). -/
structure DynamicImage where
  width : Nat
  height : Nat
deriving Repr, DecidableEq

/-- A crop rectangle as passed to crop_imm(left, upper, width, height). -/
structure Rect where
  left : Nat
  upper : Nat
  width : Nat
  height : Nat
deriving Repr, DecidableEq

/-- The truncating fractional-to-pixel conversion (dim as f32 * p) as u32,
computed on the numerator and denominator so that the kernel can evaluate
it; pixelPos_eq_floor below identifies it with the floor of dim * p. -/
def pixelPos (dim : Nat) (p : ℚ) : Nat := (((dim : Int) * p.num) / (p.den : Int)).toNat

/-- Boundary sequence: once(0).chain(lines.map(p -> (dim * p) trunc)).chain(once(dim)). -/
def boundaries (dim : Nat) (lines : List ℚ) : List Nat :=
  0 :: (lines.map (fun p => pixelPos dim p) ++ [dim])

/-- u32 subtraction: underflow is a panic, modeled as none. -/
def checkedSub (a b : Nat) : Option Nat :=
  if b ≤ a then some (a - b) else none

/-- ImageSplitter::split_image. Row and column counts are derived from the
actual line arrays; each cell is the crop_imm rectangle
(left, upper, right - left, lower - upper), computed row-major. -/
def ImageSplitter.split_image (img : DynamicImage) (config : SplitConfig) :
    Option (List (List Rect)) :=
  let h_positions : List Nat := boundaries img.height config.h_lines
  let v_positions : List Nat := boundaries img.width config.v_lines
  let actual_rows := config.h_lines.length + 1
  let actual_cols := config.v_lines.length + 1
  (List.range actual_rows).mapM (fun row => do
    let upper := h_positions.getD row 0
    let lower := h_positions.getD (row + 1) 0
    let rowHeight ← checkedSub lower upper
    (List.range actual_cols).mapM (fun col => do
      let left := v_positions.getD col 0
      let right := v_positions.getD (col + 1) 0
      let cellWidth ← checkedSub right left
      pure { left := left, upper := upper, width := cellWidth, height := rowHeight }))

/-- Outcome of processing one image: per-image success, per-image recoverable
failure, or a panic (u32 underflow inside split_image). -/
inductive ImageOutcome
  | ok
  | err
  | panicked
deriving Repr, DecidableEq

/-- Observable events of a batch run. Write events carry the 0-based grid
indices (the output filename uses row+1, col+1). -/
inductive Event
  | decodeAttempt (path : String)
  | write (path : String) (row col : Nat)
  | progress (completed total : Nat)
deriving Repr, DecidableEq

/-- External collaborators: directory creation, codec decode, and whether
saving a given cell of a given source path succeeds. -/
structure Env where
  createDirOk : Bool
  decode : String → Option DynamicImage
  saveOk : String → Nat → Nat → Rect → Bool

/-- Saving one row of cells: writes attempt left to right, stopping at the
first failure (the ? operator in process_single_image). -/
def saveRow (env : Env) (path : String) (rowIdx : Nat) :
    Nat → List Rect → Bool × List Event
  | _, [] => (true, [])
  | colIdx, cell :: rest =>
    if env.saveOk path rowIdx colIdx cell then
      let r := saveRow env path rowIdx (colIdx + 1) rest
      (r.1, Event.write path rowIdx colIdx :: r.2)
    else
      (false, [Event.write path rowIdx colIdx])

/-- Saving all rows of cells, top to bottom, stopping at the first failure. -/
def saveRows (env : Env) (path : String) :
    Nat → List (List Rect) → Bool × List Event
  | _, [] => (true, [])
  | rowIdx, row :: rest =>
    let r := saveRow env path rowIdx 0 row
    if r.1 then
      let r2 := saveRows env path (rowIdx + 1) rest
      (r2.1, r.2 ++ r2.2)
    else (false, r.2)

/-- ImageSplitter::process_single_image: decode, split, save every cell. -/
def process_single_image (env : Env) (path : String) (config : SplitConfig) :
    ImageOutcome × List Event :=
  match env.decode path with
  | none => (ImageOutcome.err, [Event.decodeAttempt path])
  | some img =>
    match ImageSplitter.split_image img config with
    | none => (ImageOutcome.panicked, [Event.decodeAttempt path])
    | some parts =>
      let s := saveRows env path 0 parts
      (if s.1 then ImageOutcome.ok else ImageOutcome.err,
        Event.decodeAttempt path :: s.2)

/-- Per-image configuration resolution: overrides.get(&idx).unwrap_or(global_config). -/
def resolveConfig (overrides : Nat → Option SplitConfig) (global_config : SplitConfig)
    (idx : Nat) : SplitConfig :=
  (overrides idx).getD global_config

/-- Result of a batch run: Err from create_dir_all, a propagated worker
panic, or the (processed, failed) pair. -/
inductive BatchResult
  | dirError
  | panicked
  | done (processed failed : Nat)
deriving Repr, DecidableEq

/-- ImageSplitter::batch_process. The schedule is the order in which the
parallel workers complete items; counts are accumulated with atomic adds,
and the progress callback fires after each item, success or failure.
On a worker panic the trace is unspecified; the model returns []. -/
def batch_process (env : Env) (image_paths : List String)
    (global_config : SplitConfig) (overrides : Nat → Option SplitConfig)
    (schedule : List Nat) : BatchResult × List Event :=
  if env.createDirOk then
    let total := image_paths.length
    let results := schedule.map (fun idx =>
      let config := resolveConfig overrides global_config idx
      let r := process_single_image env (image_paths.getD idx "") config
      (r.1, if r.1 == ImageOutcome.panicked then r.2
            else r.2 ++ [Event.progress (idx + 1) total]))
    if results.any (fun r => r.1 == ImageOutcome.panicked) then
      (BatchResult.panicked, [])
    else
      (BatchResult.done (results.countP (fun r => r.1 == ImageOutcome.ok))
        (results.countP (fun r => r.1 == ImageOutcome.err)),
        (results.map (fun r => r.2)).flatten)
  else
    (BatchResult.dirError, [])

/-- The arguments of the progress-callback invocations, in order. -/
def progressCalls (events : List Event) : List (Nat × Nat) :=
  events.filterMap (fun e => match e with
    | Event.progress c t => some (c, t)
    | _ => none)

/-- Descending sort used by the delete-selected-lines handler in app.rs:
sort_by(|a, b| b.cmp(a)) is a stable descending sort, and the output of a
stable sort is determined by the comparator, so the stable insertion sort
models it exactly. -/
def sortDesc (idxs : List Nat) : List Nat :=
  idxs.insertionSort (· ≥ ·)

/-- The per-kind removal loop of the delete-selected-lines handler:
indices sorted descending, each removed if still in bounds. -/
def removeLines (lines : List ℚ) (idxs : List Nat) : List ℚ :=
  (sortDesc idxs).foldl (fun ls idx => if idx < ls.length then ls.eraseIdx idx else ls) lines

/-- The delete-selected-lines handler of app.rs, acting on one config:
remove the selected horizontal and vertical indices and recompute
rows/cols as length + 1. -/
def delete_selected_lines (config : SplitConfig) (h_sel v_sel : List Nat) : SplitConfig :=
  let h := removeLines config.h_lines h_sel
  let v := removeLines config.v_lines v_sel
  { rows := h.length + 1, cols := v.length + 1, h_lines := h, v_lines := v }

/-- Specification-side removal: keep exactly the elements whose original
index is not selected (used to state what the descending-order loop
must compute). -/
def keepNotIn (lines : List ℚ) (idxs : List Nat) : List ℚ :=
  (lines.enum.filter (fun p => decide (p.1 ∉ idxs))).map Prod.snd

/-- The boundary value at index r, as the Rust code reads the positions
vector. -/
def boundaryAt (dim : Nat) (lines : List ℚ) (r : Nat) : Nat :=
  (boundaries dim lines).getD r 0

/-- The rectangle the code builds for grid position (r, c). -/
def cellRect (img : DynamicImage) (cfg : SplitConfig) (r c : Nat) : Rect :=
  { left := boundaryAt img.width cfg.v_lines c,
    upper := boundaryAt img.height cfg.h_lines r,
    width := boundaryAt img.width cfg.v_lines (c + 1) - boundaryAt img.width cfg.v_lines c,
    height :=
      boundaryAt img.height cfg.h_lines (r + 1) - boundaryAt img.height cfg.h_lines r }

/-- Outcome of the per-item work unit of a batch, after config resolution. -/
def itemOutcome (env : Env) (image_paths : List String) (global_config : SplitConfig)
    (overrides : Nat → Option SplitConfig) (idx : Nat) : ImageOutcome :=
  (process_single_image env (image_paths.getD idx "")
    (resolveConfig overrides global_config idx)).1

/-- The integer-arithmetic form of pixelPos is the floor of dim * p. -/
theorem pixelPos_eq_floor (dim : Nat) (p : ℚ) :
    pixelPos dim p = (⌊(dim : ℚ) * p⌋).toNat := by
  have h : ((dim : ℚ)) * p = (((dim : Int) * p.num : Int) : ℚ) / ((p.den : ℕ) : ℚ) := by
    push_cast
    rw [mul_div_assoc, Rat.num_div_den]
  rw [pixelPos, h, Rat.floor_intCast_div_natCast]

/-- C5: split_image converts each fractional line position p to a pixel
boundary by truncation (floor) of dim * p, with boundary sequences
0 :: map floor ++ last; in particular h_lines = [0.5], v_lines = [] on a
100 by 200 (width by height) image splits at pixel floor(200 * 0.5) = 100
and yields exactly two cells, each 100 pixels wide and 100 pixels tall. -/
theorem C5_truncated_boundaries :
    (∀ (dim : Nat) (lines : List ℚ),
        boundaries dim lines =
          0 :: (lines.map (fun p => (⌊(dim : ℚ) * p⌋).toNat) ++ [dim])) ∧
    ⌊(200 : ℚ) * mkRat 1 2⌋ = 100 ∧
    ImageSplitter.split_image ⟨100, 200⟩ ⟨2, 1, [mkRat 1 2], []⟩ =
      some [[⟨0, 0, 100, 100⟩], [⟨0, 100, 100, 100⟩]] := by
  refine ⟨fun dim lines => ?_, ?_, by decide⟩
  · simp only [boundaries, pixelPos_eq_floor]
  · rw [Rat.mkRat_eq_div]
    norm_num

/-- C7: on a config with empty line lists, split_image does not panic and
returns a one-by-one grid whose single cell is the crop at (0, 0) of the
full width and height of the image. -/
theorem C7_empty_lines_whole_image (img : DynamicImage) (cfg : SplitConfig)
    (hh : cfg.h_lines = []) (hv : cfg.v_lines = []) :
    ImageSplitter.split_image img cfg =
      some [[{ left := 0, upper := 0, width := img.width, height := img.height }]] := by
  simp [ImageSplitter.split_image, hh, hv, boundaries, checkedSub, List.range_succ,
    List.mapM.loop]

/-- Witness for C7 at a concrete image and config. -/
theorem C7_empty_lines_whole_image_witness :
    ImageSplitter.split_image ⟨123, 45⟩ ⟨7, 9, [], []⟩ = some [[⟨0, 0, 123, 45⟩]] :=
  C7_empty_lines_whole_image ⟨123, 45⟩ ⟨7, 9, [], []⟩ rfl rfl

/-- C3: the configuration used for image i is the override stored at key i
when present and the global configuration otherwise; moreover a whole batch
behaves exactly as if every index were resolved up front, so images without
an override follow the global config passed to the batch. -/
theorem C3_override_precedence (overrides : Nat → Option SplitConfig)
    (global_config custom : SplitConfig) (i : Nat) :
    (overrides i = some custom → resolveConfig overrides global_config i = custom) ∧
    (overrides i = none → ∀ g : SplitConfig, resolveConfig overrides g i = g) ∧
    (∀ (env : Env) (paths : List String) (schedule : List Nat),
      batch_process env paths global_config overrides schedule =
        batch_process env paths global_config
          (fun j => some (resolveConfig overrides global_config j)) schedule) := by
  refine ⟨fun h => by simp [resolveConfig, h], fun h g => by simp [resolveConfig, h], ?_⟩
  intro env paths schedule
  simp [batch_process, resolveConfig]

/-- Witness for C3: an override stored at key 2 wins there, and the two
different globals are visible at the other indices. -/
theorem C3_override_precedence_witness :
    (resolveConfig (fun j => if j = 2 then some (SplitConfig.new 3 3) else none)
        (SplitConfig.new 2 2) 2 = SplitConfig.new 3 3) ∧
    (resolveConfig (fun j => if j = 2 then some (SplitConfig.new 3 3) else none)
        SplitConfig.default 0 = SplitConfig.default) :=
  ⟨(C3_override_precedence (fun j => if j = 2 then some (SplitConfig.new 3 3) else none)
      (SplitConfig.new 2 2) (SplitConfig.new 3 3) 2).1 rfl,
    ((C3_override_precedence (fun j => if j = 2 then some (SplitConfig.new 3 3) else none)
      (SplitConfig.new 2 2) (SplitConfig.new 3 3) 0).2.1 rfl) SplitConfig.default⟩

/-- C8: when creating the output directory fails, batch_process returns the
error immediately: no image is decoded, nothing is written, the progress
callback never fires (the trace is empty), and no counts are produced. -/
theorem C8_dir_creation_failure (env : Env) (image_paths : List String)
    (global_config : SplitConfig) (overrides : Nat → Option SplitConfig)
    (schedule : List Nat) (h : env.createDirOk = false) :
    batch_process env image_paths global_config overrides schedule =
      (BatchResult.dirError, []) := by
  simp [batch_process, h]

/-- Witness for C8 at a concrete environment and batch. -/
theorem C8_dir_creation_failure_witness :
    batch_process ⟨false, fun _ => some ⟨8, 8⟩, fun _ _ _ _ => true⟩ ["a", "b"]
      SplitConfig.default (fun _ => none) [0, 1] = (BatchResult.dirError, []) :=
  C8_dir_creation_failure ⟨false, fun _ => some ⟨8, 8⟩, fun _ _ _ _ => true⟩ ["a", "b"]
    SplitConfig.default (fun _ => none) [0, 1] rfl

/-- Shape of one evenly spaced line list produced by reset_to_default. -/
theorem evenLines_spec (n : Nat) (hn : 1 ≤ n) :
    ((List.range' 1 (n - 1)).map (fun i : Nat => mkRat (i : Int) n)).length = n - 1 ∧
    (∀ i < n - 1, ((List.range' 1 (n - 1)).map (fun i : Nat => mkRat (i : Int) n)).getD i 0
        = ((i : ℚ) + 1) / (n : ℚ)) ∧
    ((List.range' 1 (n - 1)).map (fun i : Nat => mkRat (i : Int) n)).Pairwise (· < ·) ∧
    (∀ p ∈ (List.range' 1 (n - 1)).map (fun i : Nat => mkRat (i : Int) n), 0 < p ∧ p < 1) := by
  have hn0 : (0 : ℚ) < (n : ℚ) := by exact_mod_cast hn
  refine ⟨by simp, ?_, ?_, ?_⟩
  · intro i hi
    rw [List.getD_eq_getElem?_getD, List.getElem?_map, List.getElem?_range' 1 1 (by simpa)]
    show mkRat ((1 + 1 * i : ℕ) : Int) n = ((i : ℚ) + 1) / (n : ℚ)
    rw [Rat.mkRat_eq_div]
    push_cast
    ring
  · rw [List.pairwise_map]
    refine (List.pairwise_lt_range' 1 (n - 1)).imp ?_
    intro a b hab
    have hab2 : (a : ℚ) < (b : ℚ) := by exact_mod_cast hab
    rw [Rat.mkRat_eq_div, Rat.mkRat_eq_div]
    gcongr
  · intro p hp
    rw [List.mem_map] at hp
    obtain ⟨i, hi, rfl⟩ := hp
    rw [List.mem_range'_1] at hi
    rw [Rat.mkRat_eq_div]
    constructor
    · apply div_pos _ hn0
      exact_mod_cast hi.1
    · rw [div_lt_one hn0]
      have : i < n := by omega
      exact_mod_cast this

/-- C6: SplitConfig::new(rows, cols) produces h_lines of length rows - 1
whose entry i equals (i + 1) / rows, strictly increasing and inside the
open interval (0, 1); symmetrically for v_lines with cols. -/
theorem C6_new_evenly_spaced (rows cols : Nat) (hr : 1 ≤ rows) (hc : 1 ≤ cols) :
    (SplitConfig.new rows cols).h_lines.length = rows - 1 ∧
    (∀ i < rows - 1,
      (SplitConfig.new rows cols).h_lines.getD i 0 = ((i : ℚ) + 1) / (rows : ℚ)) ∧
    (SplitConfig.new rows cols).h_lines.Pairwise (· < ·) ∧
    (∀ p ∈ (SplitConfig.new rows cols).h_lines, 0 < p ∧ p < 1) ∧
    (SplitConfig.new rows cols).v_lines.length = cols - 1 ∧
    (∀ i < cols - 1,
      (SplitConfig.new rows cols).v_lines.getD i 0 = ((i : ℚ) + 1) / (cols : ℚ)) ∧
    (SplitConfig.new rows cols).v_lines.Pairwise (· < ·) ∧
    (∀ p ∈ (SplitConfig.new rows cols).v_lines, 0 < p ∧ p < 1) := by
  obtain ⟨h1, h2, h3, h4⟩ := evenLines_spec rows hr
  obtain ⟨v1, v2, v3, v4⟩ := evenLines_spec cols hc
  exact ⟨h1, h2, h3, h4, v1, v2, v3, v4⟩

/-- Witness for C6 at rows = 3, cols = 2. -/
theorem C6_new_evenly_spaced_witness :
    (SplitConfig.new 3 2).h_lines.length = 3 - 1 ∧
    (∀ i < 3 - 1,
      (SplitConfig.new 3 2).h_lines.getD i 0 = ((i : ℚ) + 1) / ((3 : Nat) : ℚ)) ∧
    (SplitConfig.new 3 2).h_lines.Pairwise (· < ·) ∧
    (∀ p ∈ (SplitConfig.new 3 2).h_lines, 0 < p ∧ p < 1) ∧
    (SplitConfig.new 3 2).v_lines.length = 2 - 1 ∧
    (∀ i < 2 - 1,
      (SplitConfig.new 3 2).v_lines.getD i 0 = ((i : ℚ) + 1) / ((2 : Nat) : ℚ)) ∧
    (SplitConfig.new 3 2).v_lines.Pairwise (· < ·) ∧
    (∀ p ∈ (SplitConfig.new 3 2).v_lines, 0 < p ∧ p < 1) :=
  C6_new_evenly_spaced 3 2 (by decide) (by decide)

/-- Option-monad mapM over a list where every element succeeds, with an
explicit accumulator for the loop. -/
theorem mapM_loop_eq_some {α β : Type} (f : α → Option β) (g : α → β) :
    ∀ (l : List α) (acc : List β), (∀ a ∈ l, f a = some (g a)) →
      List.mapM.loop f l acc = some (acc.reverse ++ l.map g)
  | [], acc, _ => by simp [List.mapM.loop]
  | a :: t, acc, h => by
    rw [List.mapM.loop, h a (by simp)]
    show List.mapM.loop f t (g a :: acc) = _
    rw [mapM_loop_eq_some f g t (g a :: acc) (fun x hx => h x (by simp [hx]))]
    simp

/-- Option-monad mapM over a list where every element succeeds. -/
theorem mapM_eq_some_map {α β : Type} (f : α → Option β) (g : α → β) (l : List α)
    (h : ∀ a ∈ l, f a = some (g a)) : l.mapM f = some (l.map g) := by
  rw [show l.mapM f = List.mapM.loop f l [] from rfl, mapM_loop_eq_some f g l [] h]
  simp

/-- Option-monad mapM fails whenever one element fails. -/
theorem mapM_loop_eq_none {α β : Type} (f : α → Option β) :
    ∀ (l : List α) (acc : List β), (∃ a ∈ l, f a = none) →
      List.mapM.loop f l acc = none
  | [], _, h => by simp at h
  | a :: t, acc, h => by
    rw [List.mapM.loop]
    cases hfa : f a with
    | none => rfl
    | some b =>
      obtain ⟨x, hx, hfx⟩ := h
      rcases List.mem_cons.mp hx with rfl | hxt
      · exact absurd hfa (by simp [hfx])
      · exact mapM_loop_eq_none f t (b :: acc) ⟨x, hxt, hfx⟩

/-- Option-monad mapM fails whenever one element fails (top level). -/
theorem mapM_eq_none {α β : Type} (f : α → Option β) (l : List α)
    (h : ∃ a ∈ l, f a = none) : l.mapM f = none :=
  mapM_loop_eq_none f l [] h

theorem boundaries_length (dim : Nat) (lines : List ℚ) :
    (boundaries dim lines).length = lines.length + 2 := by
  simp [boundaries]

theorem boundaryAt_zero (dim : Nat) (lines : List ℚ) : boundaryAt dim lines 0 = 0 := rfl

theorem boundaryAt_mid (dim : Nat) (lines : List ℚ) (r : Nat) (h : r < lines.length) :
    boundaryAt dim lines (r + 1) = pixelPos dim (lines.getD r 0) := by
  rw [boundaryAt, boundaries, List.getD_cons_succ, List.getD_eq_getElem?_getD,
    List.getElem?_append_left (by simpa), List.getElem?_map,
    List.getD_eq_getElem?_getD]
  cases hx : lines[r]? with
  | none => exact absurd hx (by simp [h])
  | some p => simp

theorem boundaryAt_last (dim : Nat) (lines : List ℚ) :
    boundaryAt dim lines (lines.length + 1) = dim := by
  rw [boundaryAt, boundaries, List.getD_cons_succ, List.getD_eq_getElem?_getD,
    List.getElem?_append_right (by simp)]
  simp

/-- pixelPos is monotone in the fractional position. -/
theorem pixelPos_mono (dim : Nat) {p q : ℚ} (h : p ≤ q) :
    pixelPos dim p ≤ pixelPos dim q := by
  rw [pixelPos_eq_floor, pixelPos_eq_floor]
  exact Int.toNat_le_toNat (Int.floor_le_floor
    (mul_le_mul_of_nonneg_left h (by positivity)))

/-- pixelPos of a position at most one stays inside the image. -/
theorem pixelPos_le_dim (dim : Nat) {p : ℚ} (h : p ≤ 1) : pixelPos dim p ≤ dim := by
  rw [pixelPos_eq_floor]
  rw [Int.toNat_le]
  calc ⌊(dim : ℚ) * p⌋ ≤ ⌊(dim : ℚ)⌋ :=
        Int.floor_le_floor (by nlinarith [Nat.cast_nonneg (α := ℚ) dim])
    _ = (dim : Int) := Int.floor_natCast dim

/-- Adjacent boundary positions are non-decreasing for a sorted line list
bounded by one. -/
theorem boundaryAt_step (dim : Nat) (lines : List ℚ)
    (hsort : lines.Pairwise (· ≤ ·)) (hub : ∀ p ∈ lines, p ≤ 1) :
    ∀ r ≤ lines.length, boundaryAt dim lines r ≤ boundaryAt dim lines (r + 1) := by
  intro r hr
  match r, hr with
  | 0, _ => exact Nat.zero_le _
  | k + 1, hk =>
    have hklen : k < lines.length := by omega
    rw [boundaryAt_mid dim lines k hklen]
    rcases Nat.lt_or_ge (k + 1) lines.length with h2 | h2
    · rw [boundaryAt_mid dim lines (k + 1) h2]
      refine pixelPos_mono dim ?_
      have := List.pairwise_iff_getElem.mp hsort k (k + 1) hklen h2 (Nat.lt_succ_self k)
      rwa [List.getD_eq_getElem lines 0 hklen, List.getD_eq_getElem lines 0 h2]
    · have hlen : k + 1 = lines.length := by omega
      rw [hlen, boundaryAt_last]
      refine pixelPos_le_dim dim (hub _ ?_)
      rw [List.getD_eq_getElem lines 0 hklen]
      exact List.getElem_mem hklen

/-- Monotone consequence of the stepwise bound. -/
theorem stepwise_mono (f : Nat → Nat) (n : Nat)
    (hstep : ∀ r ≤ n, f r ≤ f (r + 1)) :
    ∀ j ≤ n + 1, ∀ i ≤ j, f i ≤ f j := by
  intro j
  induction j with
  | zero =>
    intro _ i hi
    have : i = 0 := Nat.le_zero.mp hi
    simp [this]
  | succ k ih =>
    intro hk i hi
    rcases Nat.eq_or_lt_of_le hi with rfl | hlt
    · exact Nat.le_refl _
    · exact le_trans (ih (by omega) i (by omega)) (hstep k (by omega))

/-- Full boundary monotonicity. -/
theorem boundaryAt_mono (dim : Nat) (lines : List ℚ)
    (hsort : lines.Pairwise (· ≤ ·)) (hub : ∀ p ∈ lines, p ≤ 1) :
    ∀ j ≤ lines.length + 1, ∀ i ≤ j, boundaryAt dim lines i ≤ boundaryAt dim lines j :=
  stepwise_mono (boundaryAt dim lines) lines.length (boundaryAt_step dim lines hsort hub)

/-- A stepwise monotone sequence from 0 to d hits every point below d in
some half-open interval. -/
theorem exists_interval (f : Nat → Nat) :
    ∀ n : Nat, (∀ j ≤ n + 1, ∀ i ≤ j, f i ≤ f j) → f 0 = 0 →
      ∀ y, y < f (n + 1) → ∃ r, r ≤ n ∧ f r ≤ y ∧ y < f (r + 1)
  | 0, _, h0, y, hy => ⟨0, le_refl 0, by omega, hy⟩
  | n + 1, hmono, h0, y, hy => by
    rcases Nat.lt_or_ge y (f (n + 1)) with h | h
    · obtain ⟨r, hr, h1, h2⟩ := exists_interval f n
        (fun j hj i hi => hmono j (by omega) i hi) h0 y h
      exact ⟨r, by omega, h1, h2⟩
    · exact ⟨n + 1, le_refl _, h, hy⟩

/-- A stepwise monotone sequence from 0 to d covers each point below d by
exactly one half-open interval. -/
theorem exists_unique_interval (f : Nat → Nat) (n d : Nat)
    (hmono : ∀ j ≤ n + 1, ∀ i ≤ j, f i ≤ f j)
    (h0 : f 0 = 0) (hlast : f (n + 1) = d) (y : Nat) (hy : y < d) :
    ∃! r, r ≤ n ∧ f r ≤ y ∧ y < f (r + 1) := by
  obtain ⟨r0, hr0n, hr0le, hr0lt⟩ := exists_interval f n hmono h0 y (by omega)
  refine ⟨r0, ⟨hr0n, hr0le, hr0lt⟩, ?_⟩
  intro r hr
  obtain ⟨hrn, hle, hlt⟩ := hr
  by_contra hne
  rcases Nat.lt_or_ge r r0 with h | h
  · have : f (r + 1) ≤ f r0 := hmono _ (by omega) _ (by omega)
    omega
  · have hgt : r0 < r := by omega
    have : f (r0 + 1) ≤ f r := hmono _ (by omega) _ (by omega)
    omega

/-- For sorted, bounded line lists split_image succeeds and produces
exactly the row-major grid of boundary rectangles. -/
theorem split_image_eq_of_sorted (img : DynamicImage) (cfg : SplitConfig)
    (hhs : cfg.h_lines.Pairwise (· ≤ ·)) (hhu : ∀ p ∈ cfg.h_lines, p ≤ 1)
    (hvs : cfg.v_lines.Pairwise (· ≤ ·)) (hvu : ∀ p ∈ cfg.v_lines, p ≤ 1) :
    ImageSplitter.split_image img cfg =
      some ((List.range (cfg.h_lines.length + 1)).map (fun r =>
        (List.range (cfg.v_lines.length + 1)).map (fun c => cellRect img cfg r c))) := by
  have hstep (r : Nat) (hr : r < cfg.h_lines.length + 1) :
      checkedSub (boundaryAt img.height cfg.h_lines (r + 1))
        (boundaryAt img.height cfg.h_lines r) =
        some (boundaryAt img.height cfg.h_lines (r + 1) -
          boundaryAt img.height cfg.h_lines r) := by
    rw [checkedSub, if_pos (boundaryAt_step img.height cfg.h_lines hhs hhu r (by omega))]
  have vstep (c : Nat) (hc : c < cfg.v_lines.length + 1) :
      checkedSub (boundaryAt img.width cfg.v_lines (c + 1))
        (boundaryAt img.width cfg.v_lines c) =
        some (boundaryAt img.width cfg.v_lines (c + 1) -
          boundaryAt img.width cfg.v_lines c) := by
    rw [checkedSub, if_pos (boundaryAt_step img.width cfg.v_lines hvs hvu c (by omega))]
  rw [ImageSplitter.split_image]
  refine mapM_eq_some_map _ _ _ ?_
  intro r hr
  rw [List.mem_range] at hr
  show (checkedSub (boundaryAt img.height cfg.h_lines (r + 1))
      (boundaryAt img.height cfg.h_lines r)).bind _ = _
  rw [hstep r hr, Option.some_bind]
  refine mapM_eq_some_map _ _ _ ?_
  intro c hc
  rw [List.mem_range] at hc
  show (checkedSub (boundaryAt img.width cfg.v_lines (c + 1))
      (boundaryAt img.width cfg.v_lines c)).bind _ = _
  rw [vstep c hc, Option.some_bind]
  rfl

/-- Reading a cell of the row-major grid. -/
theorem range_map_getD {α : Type} (n r : Nat) (f : Nat → α) (d : α) (h : r < n) :
    ((List.range n).map f).getD r d = f r := by
  rw [List.getD_eq_getElem _ _ (by simpa), List.getElem_map, List.getElem_range]

/-- C2: for a config whose line lists are strictly increasing within [0, 1],
split_image returns exactly (h_lines.length + 1) rows of
(v_lines.length + 1) cells in row-major order; the cell at (r, c) is the
boundary rectangle, every cell stays inside the image, and every pixel of
the image belongs to exactly one cell: the cells tile the image with no
overlap and no gap. -/
theorem C2_split_image_tiles (img : DynamicImage) (cfg : SplitConfig)
    (hhs : cfg.h_lines.Pairwise (· < ·)) (hhb : ∀ p ∈ cfg.h_lines, 0 ≤ p ∧ p ≤ 1)
    (hvs : cfg.v_lines.Pairwise (· < ·)) (hvb : ∀ p ∈ cfg.v_lines, 0 ≤ p ∧ p ≤ 1) :
    ∃ grid, ImageSplitter.split_image img cfg = some grid ∧
      grid.length = cfg.h_lines.length + 1 ∧
      (∀ row ∈ grid, row.length = cfg.v_lines.length + 1) ∧
      (∀ r < cfg.h_lines.length + 1, ∀ c < cfg.v_lines.length + 1,
        (grid.getD r []).getD c ⟨0, 0, 0, 0⟩ = cellRect img cfg r c ∧
        (cellRect img cfg r c).left + (cellRect img cfg r c).width ≤ img.width ∧
        (cellRect img cfg r c).upper + (cellRect img cfg r c).height ≤ img.height) ∧
      (∀ x < img.width, ∀ y < img.height,
        ∃! rc : Nat × Nat,
          rc.1 < cfg.h_lines.length + 1 ∧ rc.2 < cfg.v_lines.length + 1 ∧
          (cellRect img cfg rc.1 rc.2).left ≤ x ∧
          x < (cellRect img cfg rc.1 rc.2).left + (cellRect img cfg rc.1 rc.2).width ∧
          (cellRect img cfg rc.1 rc.2).upper ≤ y ∧
          y < (cellRect img cfg rc.1 rc.2).upper + (cellRect img cfg rc.1 rc.2).height) := by
  have hhs2 : cfg.h_lines.Pairwise (· ≤ ·) := hhs.imp le_of_lt
  have hvs2 : cfg.v_lines.Pairwise (· ≤ ·) := hvs.imp le_of_lt
  have hhu : ∀ p ∈ cfg.h_lines, p ≤ 1 := fun p hp => (hhb p hp).2
  have hvu : ∀ p ∈ cfg.v_lines, p ≤ 1 := fun p hp => (hvb p hp).2
  have hhmono := boundaryAt_mono img.height cfg.h_lines hhs2 hhu
  have hvmono := boundaryAt_mono img.width cfg.v_lines hvs2 hvu
  have hhstep := boundaryAt_step img.height cfg.h_lines hhs2 hhu
  have hvstep := boundaryAt_step img.width cfg.v_lines hvs2 hvu
  have hhlast := boundaryAt_last img.height cfg.h_lines
  have hvlast := boundaryAt_last img.width cfg.v_lines
  refine ⟨_, split_image_eq_of_sorted img cfg hhs2 hhu hvs2 hvu, by simp, ?_, ?_, ?_⟩
  · intro row hrow
    rw [List.mem_map] at hrow
    obtain ⟨r, _, rfl⟩ := hrow
    simp
  · intro r hr c hc
    refine ⟨?_, ?_, ?_⟩
    · rw [range_map_getD _ _ _ _ hr, range_map_getD _ _ _ _ hc]
    · have h1 : boundaryAt img.width cfg.v_lines c ≤
          boundaryAt img.width cfg.v_lines (c + 1) := hvstep c (by omega)
      have h2 : boundaryAt img.width cfg.v_lines (c + 1) ≤ img.width := by
        have := hvmono (cfg.v_lines.length + 1) (le_refl _) (c + 1) (by omega)
        rwa [hvlast] at this
      show boundaryAt img.width cfg.v_lines c +
        (boundaryAt img.width cfg.v_lines (c + 1) - boundaryAt img.width cfg.v_lines c) ≤
          img.width
      omega
    · have h1 : boundaryAt img.height cfg.h_lines r ≤
          boundaryAt img.height cfg.h_lines (r + 1) := hhstep r (by omega)
      have h2 : boundaryAt img.height cfg.h_lines (r + 1) ≤ img.height := by
        have := hhmono (cfg.h_lines.length + 1) (le_refl _) (r + 1) (by omega)
        rwa [hhlast] at this
      show boundaryAt img.height cfg.h_lines r +
        (boundaryAt img.height cfg.h_lines (r + 1) - boundaryAt img.height cfg.h_lines r) ≤
          img.height
      omega
  · intro x hx y hy
    obtain ⟨c0, ⟨hc0n, hc0le, hc0lt⟩, hc0u⟩ :=
      exists_unique_interval (boundaryAt img.width cfg.v_lines) cfg.v_lines.length
        img.width hvmono (boundaryAt_zero img.width cfg.v_lines) hvlast x hx
    obtain ⟨r0, ⟨hr0n, hr0le, hr0lt⟩, hr0u⟩ :=
      exists_unique_interval (boundaryAt img.height cfg.h_lines) cfg.h_lines.length
        img.height hhmono (boundaryAt_zero img.height cfg.h_lines) hhlast y hy
    have hstepc0 := hvstep c0 hc0n
    have hstepr0 := hhstep r0 hr0n
    refine ⟨(r0, c0), ⟨by omega, by omega, ?_, ?_, ?_, ?_⟩, ?_⟩
    · exact hc0le
    · show x < boundaryAt img.width cfg.v_lines c0 +
        (boundaryAt img.width cfg.v_lines (c0 + 1) - boundaryAt img.width cfg.v_lines c0)
      omega
    · exact hr0le
    · show y < boundaryAt img.height cfg.h_lines r0 +
        (boundaryAt img.height cfg.h_lines (r0 + 1) - boundaryAt img.height cfg.h_lines r0)
      omega
    · rintro ⟨r, c⟩ ⟨hr, hc, h1, h2, h3, h4⟩
      have hstepc := hvstep c (by omega)
      have hstepr := hhstep r (by omega)
      have hxc : x < boundaryAt img.width cfg.v_lines (c + 1) := by
        have h2b : x < boundaryAt img.width cfg.v_lines c +
            (boundaryAt img.width cfg.v_lines (c + 1) -
              boundaryAt img.width cfg.v_lines c) := h2
        omega
      have hyr : y < boundaryAt img.height cfg.h_lines (r + 1) := by
        have h4b : y < boundaryAt img.height cfg.h_lines r +
            (boundaryAt img.height cfg.h_lines (r + 1) -
              boundaryAt img.height cfg.h_lines r) := h4
        omega
      have hceq : c = c0 := hc0u c ⟨by omega, h1, hxc⟩
      have hreq : r = r0 := hr0u r ⟨by omega, h3, hyr⟩
      rw [hceq, hreq]

/-- Witness for C2 on a 4 by 4 image with one horizontal and one vertical
line at one half. -/
theorem C2_split_image_tiles_witness :
    ∃ grid, ImageSplitter.split_image ⟨4, 4⟩ ⟨2, 2, [mkRat 1 2], [mkRat 1 2]⟩ = some grid ∧
      grid.length = ([mkRat 1 2] : List ℚ).length + 1 ∧
      (∀ row ∈ grid, row.length = ([mkRat 1 2] : List ℚ).length + 1) ∧
      (∀ r < ([mkRat 1 2] : List ℚ).length + 1, ∀ c < ([mkRat 1 2] : List ℚ).length + 1,
        (grid.getD r []).getD c ⟨0, 0, 0, 0⟩ =
          cellRect ⟨4, 4⟩ ⟨2, 2, [mkRat 1 2], [mkRat 1 2]⟩ r c ∧
        (cellRect ⟨4, 4⟩ ⟨2, 2, [mkRat 1 2], [mkRat 1 2]⟩ r c).left +
          (cellRect ⟨4, 4⟩ ⟨2, 2, [mkRat 1 2], [mkRat 1 2]⟩ r c).width ≤
            (⟨4, 4⟩ : DynamicImage).width ∧
        (cellRect ⟨4, 4⟩ ⟨2, 2, [mkRat 1 2], [mkRat 1 2]⟩ r c).upper +
          (cellRect ⟨4, 4⟩ ⟨2, 2, [mkRat 1 2], [mkRat 1 2]⟩ r c).height ≤
            (⟨4, 4⟩ : DynamicImage).height) ∧
      (∀ x < (⟨4, 4⟩ : DynamicImage).width, ∀ y < (⟨4, 4⟩ : DynamicImage).height,
        ∃! rc : Nat × Nat,
          rc.1 < ([mkRat 1 2] : List ℚ).length + 1 ∧
          rc.2 < ([mkRat 1 2] : List ℚ).length + 1 ∧
          (cellRect ⟨4, 4⟩ ⟨2, 2, [mkRat 1 2], [mkRat 1 2]⟩ rc.1 rc.2).left ≤ x ∧
          x < (cellRect ⟨4, 4⟩ ⟨2, 2, [mkRat 1 2], [mkRat 1 2]⟩ rc.1 rc.2).left +
            (cellRect ⟨4, 4⟩ ⟨2, 2, [mkRat 1 2], [mkRat 1 2]⟩ rc.1 rc.2).width ∧
          (cellRect ⟨4, 4⟩ ⟨2, 2, [mkRat 1 2], [mkRat 1 2]⟩ rc.1 rc.2).upper ≤ y ∧
          y < (cellRect ⟨4, 4⟩ ⟨2, 2, [mkRat 1 2], [mkRat 1 2]⟩ rc.1 rc.2).upper +
            (cellRect ⟨4, 4⟩ ⟨2, 2, [mkRat 1 2], [mkRat 1 2]⟩ rc.1 rc.2).height) :=
  C2_split_image_tiles ⟨4, 4⟩ ⟨2, 2, [mkRat 1 2], [mkRat 1 2]⟩
    (by decide) (by decide) (by decide) (by decide)

/-- For an inverted pair b < a of non-negative positions there is a
dimension on which their pixel boundaries strictly invert. -/
theorem pixelPos_gap {a b : ℚ} (hb : 0 ≤ b) (hlt : b < a) :
    pixelPos (Nat.ceil (a - b)⁻¹) b < pixelPos (Nat.ceil (a - b)⁻¹) a := by
  have hd : (0 : ℚ) < a - b := by linarith
  have hH : ((a - b)⁻¹ : ℚ) ≤ (Nat.ceil (a - b)⁻¹ : ℚ) := Nat.le_ceil _
  have hH0 : (0 : ℚ) ≤ (Nat.ceil (a - b)⁻¹ : ℚ) := by positivity
  have hgap : (Nat.ceil (a - b)⁻¹ : ℚ) * b + 1 ≤ (Nat.ceil (a - b)⁻¹ : ℚ) * a := by
    have h1 : (1 : ℚ) = (a - b)⁻¹ * (a - b) := by
      field_simp
    have h2 : (a - b)⁻¹ * (a - b) ≤ (Nat.ceil (a - b)⁻¹ : ℚ) * (a - b) := by
      apply mul_le_mul_of_nonneg_right hH (le_of_lt hd)
    nlinarith
  rw [pixelPos_eq_floor, pixelPos_eq_floor]
  have hfb : (0 : Int) ≤ ⌊(Nat.ceil (a - b)⁻¹ : ℚ) * b⌋ := by
    apply Int.floor_nonneg.mpr
    positivity
  have hfl : ⌊(Nat.ceil (a - b)⁻¹ : ℚ) * b⌋ + 1 ≤ ⌊(Nat.ceil (a - b)⁻¹ : ℚ) * a⌋ := by
    have := Int.floor_le_floor (α := ℚ) hgap
    rwa [show ((Nat.ceil (a - b)⁻¹ : ℚ) * b + 1) = ((Nat.ceil (a - b)⁻¹ : ℚ) * b + (1 : ℤ))
      by push_cast; ring, Int.floor_add_int] at this
  omega

/-- At an inverted adjacent pair the boundary subtraction underflows on the
image dimension given by the reciprocal gap. -/
theorem boundary_sub_fails (lines : List ℚ) (i : Nat) (hi : i + 1 < lines.length)
    (h0 : 0 ≤ lines.getD (i + 1) 0) (hlt : lines.getD (i + 1) 0 < lines.getD i 0) :
    checkedSub
      (boundaryAt (Nat.ceil (lines.getD i 0 - lines.getD (i + 1) 0)⁻¹) lines (i + 1 + 1))
      (boundaryAt (Nat.ceil (lines.getD i 0 - lines.getD (i + 1) 0)⁻¹) lines (i + 1)) =
      none := by
  rw [boundaryAt_mid _ _ (i + 1) (by omega), boundaryAt_mid _ _ i (by omega), checkedSub,
    if_neg]
  have := pixelPos_gap h0 hlt
  omega

/-- An adjacent inversion extracted from an unsorted list, in getD form. -/
theorem exists_inversion_of_not_pairwise (lines : List ℚ)
    (h : ¬ lines.Pairwise (· ≤ ·)) :
    ∃ i, i + 1 < lines.length ∧ lines.getD (i + 1) 0 < lines.getD i 0 := by
  have hnc : ¬ List.Chain' (· ≤ ·) lines := fun hc => h (List.chain'_iff_pairwise.mp hc)
  rw [List.chain'_iff_get] at hnc
  push_neg at hnc
  obtain ⟨i, hi, hlt⟩ := hnc
  refine ⟨i, by omega, ?_⟩
  rw [List.getD_eq_getElem _ _ (by omega), List.getD_eq_getElem _ _ (by omega)]
  simpa using hlt

/-- C10: with all positions inside [0, 1], split_image is total over all
images exactly when both line lists are sorted non-decreasing; an inverted
pair makes the u32 boundary subtraction underflow on a suitable image, so
sortedness is a genuine precondition of split_image. -/
theorem C10_sortedness_is_precondition (cfg : SplitConfig)
    (hhb : ∀ p ∈ cfg.h_lines, 0 ≤ p ∧ p ≤ 1)
    (hvb : ∀ p ∈ cfg.v_lines, 0 ≤ p ∧ p ≤ 1) :
    (∀ img : DynamicImage, (ImageSplitter.split_image img cfg).isSome = true) ↔
      (cfg.h_lines.Pairwise (· ≤ ·) ∧ cfg.v_lines.Pairwise (· ≤ ·)) := by
  constructor
  · intro hall
    by_contra hnot
    rcases not_and_or.mp hnot with hA | hA
    · obtain ⟨i, hi, hlt⟩ := exists_inversion_of_not_pairwise cfg.h_lines hA
      have h0 : 0 ≤ cfg.h_lines.getD (i + 1) 0 := by
        refine (hhb _ ?_).1
        rw [List.getD_eq_getElem _ _ (by omega)]
        exact List.getElem_mem _
      have hfail : ImageSplitter.split_image
          ⟨1, Nat.ceil (cfg.h_lines.getD i 0 - cfg.h_lines.getD (i + 1) 0)⁻¹⟩ cfg =
          none := by
        rw [ImageSplitter.split_image]
        apply mapM_eq_none
        refine ⟨i + 1, List.mem_range.mpr (by omega), ?_⟩
        show (checkedSub
          (boundaryAt (Nat.ceil (cfg.h_lines.getD i 0 - cfg.h_lines.getD (i + 1) 0)⁻¹)
            cfg.h_lines (i + 1 + 1))
          (boundaryAt (Nat.ceil (cfg.h_lines.getD i 0 - cfg.h_lines.getD (i + 1) 0)⁻¹)
            cfg.h_lines (i + 1))).bind _ = none
        rw [boundary_sub_fails cfg.h_lines i hi h0 hlt]
        rfl
      have hcall := hall
        ⟨1, Nat.ceil (cfg.h_lines.getD i 0 - cfg.h_lines.getD (i + 1) 0)⁻¹⟩
      rw [hfail] at hcall
      simp at hcall
    · obtain ⟨i, hi, hlt⟩ := exists_inversion_of_not_pairwise cfg.v_lines hA
      have h0 : 0 ≤ cfg.v_lines.getD (i + 1) 0 := by
        refine (hvb _ ?_).1
        rw [List.getD_eq_getElem _ _ (by omega)]
        exact List.getElem_mem _
      have hfail : ImageSplitter.split_image
          ⟨Nat.ceil (cfg.v_lines.getD i 0 - cfg.v_lines.getD (i + 1) 0)⁻¹, 1⟩ cfg =
          none := by
        rw [ImageSplitter.split_image]
        apply mapM_eq_none
        refine ⟨0, List.mem_range.mpr (by omega), ?_⟩
        show (checkedSub (boundaryAt 1 cfg.h_lines 1) (boundaryAt 1 cfg.h_lines 0)).bind
          _ = none
        cases hcs : checkedSub (boundaryAt 1 cfg.h_lines 1) (boundaryAt 1 cfg.h_lines 0) with
        | none => rfl
        | some rowHeight =>
          rw [Option.some_bind]
          apply mapM_eq_none
          refine ⟨i + 1, List.mem_range.mpr (by omega), ?_⟩
          show (checkedSub
            (boundaryAt (Nat.ceil (cfg.v_lines.getD i 0 - cfg.v_lines.getD (i + 1) 0)⁻¹)
              cfg.v_lines (i + 1 + 1))
            (boundaryAt (Nat.ceil (cfg.v_lines.getD i 0 - cfg.v_lines.getD (i + 1) 0)⁻¹)
              cfg.v_lines (i + 1))).bind _ = none
          rw [boundary_sub_fails cfg.v_lines i hi h0 hlt]
          rfl
      have hcall := hall
        ⟨Nat.ceil (cfg.v_lines.getD i 0 - cfg.v_lines.getD (i + 1) 0)⁻¹, 1⟩
      rw [hfail] at hcall
      simp at hcall
  · rintro ⟨hh, hv⟩ img
    rw [split_image_eq_of_sorted img cfg hh (fun p hp => (hhb p hp).2) hv
      (fun p hp => (hvb p hp).2)]
    rfl

/-- Witness for C10: the inverted config with h_lines = [0.8, 0.2] is not
total, and concretely fails (underflows) on a 10 by 10 image. -/
theorem C10_sortedness_is_precondition_witness :
    ((∀ img : DynamicImage,
        (ImageSplitter.split_image img ⟨3, 1, [mkRat 4 5, mkRat 1 5], []⟩).isSome = true) ↔
      (([mkRat 4 5, mkRat 1 5] : List ℚ).Pairwise (· ≤ ·) ∧
        ([] : List ℚ).Pairwise (· ≤ ·))) ∧
    ImageSplitter.split_image ⟨10, 10⟩ ⟨3, 1, [mkRat 4 5, mkRat 1 5], []⟩ = none :=
  ⟨C10_sortedness_is_precondition ⟨3, 1, [mkRat 4 5, mkRat 1 5], []⟩
    (by decide) (by decide), by decide⟩

/-- Saving a row emits no progress events. -/
theorem progressCalls_saveRow (env : Env) (path : String) (rowIdx : Nat)
    (cells : List Rect) :
    ∀ colIdx : Nat, progressCalls (saveRow env path rowIdx colIdx cells).2 = [] := by
  induction cells with
  | nil => intro colIdx; rfl
  | cons cell rest ih =>
    intro colIdx
    rw [saveRow]
    by_cases h : env.saveOk path rowIdx colIdx cell
    · simp only [if_pos h, progressCalls, List.filterMap_cons]
      exact ih (colIdx + 1)
    · simp [if_neg h, progressCalls]

/-- The progress projection distributes over trace concatenation. -/
theorem progressCalls_append (l1 l2 : List Event) :
    progressCalls (l1 ++ l2) = progressCalls l1 ++ progressCalls l2 :=
  List.filterMap_append l1 l2 _

/-- Saving the grid emits no progress events. -/
theorem progressCalls_saveRows (env : Env) (path : String) (parts : List (List Rect)) :
    ∀ rowIdx : Nat, progressCalls (saveRows env path rowIdx parts).2 = [] := by
  induction parts with
  | nil => intro rowIdx; rfl
  | cons row rest ih =>
    intro rowIdx
    rw [saveRows]
    by_cases h : (saveRow env path rowIdx 0 row).1
    · rw [if_pos h]
      show progressCalls
        ((saveRow env path rowIdx 0 row).2 ++ (saveRows env path (rowIdx + 1) rest).2) = []
      rw [progressCalls_append, progressCalls_saveRow env path rowIdx row 0, ih (rowIdx + 1)]
      rfl
    · rw [if_neg h]
      exact progressCalls_saveRow env path rowIdx row 0

/-- Processing a single image emits no progress events. -/
theorem progressCalls_process (env : Env) (path : String) (config : SplitConfig) :
    progressCalls (process_single_image env path config).2 = [] := by
  cases hd : env.decode path with
  | none => simp [process_single_image, hd, progressCalls]
  | some img =>
    cases hs : ImageSplitter.split_image img config with
    | none => simp [process_single_image, hd, hs, progressCalls]
    | some parts =>
      simp only [process_single_image, hd, hs, progressCalls, List.filterMap_cons]
      exact progressCalls_saveRows env path parts 0

/-- Under a successful directory creation and no worker panic, a batch run
reduces to per-item outcomes, an item-count pair, and a concatenated
trace. -/
theorem batch_process_run (env : Env) (image_paths : List String)
    (global_config : SplitConfig) (overrides : Nat → Option SplitConfig)
    (schedule : List Nat) (hdir : env.createDirOk = true)
    (hnp : ∀ idx ∈ schedule,
      itemOutcome env image_paths global_config overrides idx ≠ ImageOutcome.panicked) :
    batch_process env image_paths global_config overrides schedule =
      (BatchResult.done
        (schedule.countP (fun idx =>
          itemOutcome env image_paths global_config overrides idx == ImageOutcome.ok))
        (schedule.countP (fun idx =>
          itemOutcome env image_paths global_config overrides idx == ImageOutcome.err)),
      (schedule.map (fun idx =>
        (process_single_image env (image_paths.getD idx "")
          (resolveConfig overrides global_config idx)).2 ++
        [Event.progress (idx + 1) image_paths.length])).flatten) := by
  rw [batch_process, hdir]
  simp only [if_true]
  have hmap : schedule.map (fun idx =>
      let config := resolveConfig overrides global_config idx
      let r := process_single_image env (image_paths.getD idx "") config
      (r.1, if r.1 == ImageOutcome.panicked then r.2
            else r.2 ++ [Event.progress (idx + 1) image_paths.length])) =
    schedule.map (fun idx =>
      (itemOutcome env image_paths global_config overrides idx,
        (process_single_image env (image_paths.getD idx "")
          (resolveConfig overrides global_config idx)).2 ++
        [Event.progress (idx + 1) image_paths.length])) := by
    apply List.map_congr_left
    intro idx hidx
    have hne := hnp idx hidx
    rw [itemOutcome] at hne
    simp only [itemOutcome]
    rw [if_neg (by simpa using hne)]
  rw [hmap]
  have hany : (schedule.map (fun idx =>
      (itemOutcome env image_paths global_config overrides idx,
        (process_single_image env (image_paths.getD idx "")
          (resolveConfig overrides global_config idx)).2 ++
        [Event.progress (idx + 1) image_paths.length]))).any
      (fun r => r.1 == ImageOutcome.panicked) = false := by
    rw [List.any_eq_false]
    intro r hr
    rw [List.mem_map] at hr
    obtain ⟨idx, hidx, rfl⟩ := hr
    simpa using hnp idx hidx
  rw [hany]
  simp only [Bool.false_eq_true, if_false, List.countP_map, List.map_map]
  rfl

/-- C1: when the output directory is created and no work unit panics, a
batch over any path list, global config and overrides returns a
(processed, failed) pair with processed + failed equal to the number of
inputs; each image contributes one increment, to processed exactly when
its whole decode, partition, encode and write pipeline succeeds, and every
image is processed to completion regardless of the failures of the
others. -/
theorem C1_batch_accounting (env : Env) (image_paths : List String)
    (global_config : SplitConfig) (overrides : Nat → Option SplitConfig)
    (schedule : List Nat) (hdir : env.createDirOk = true)
    (hperm : schedule.Perm (List.range image_paths.length))
    (hnp : ∀ idx ∈ schedule,
      itemOutcome env image_paths global_config overrides idx ≠ ImageOutcome.panicked) :
    ∃ processed failed events,
      batch_process env image_paths global_config overrides schedule =
        (BatchResult.done processed failed, events) ∧
      processed + failed = image_paths.length ∧
      processed = (List.range image_paths.length).countP (fun idx =>
        itemOutcome env image_paths global_config overrides idx == ImageOutcome.ok) ∧
      failed = (List.range image_paths.length).countP (fun idx =>
        itemOutcome env image_paths global_config overrides idx == ImageOutcome.err) ∧
      (∀ idx < image_paths.length,
        Event.progress (idx + 1) image_paths.length ∈ events) := by
  rw [batch_process_run env image_paths global_config overrides schedule hdir hnp]
  refine ⟨_, _, _, rfl, ?_, ?_, ?_, ?_⟩
  · rw [hperm.countP_eq, hperm.countP_eq]
    have hsplit := List.length_eq_countP_add_countP
      (fun idx => itemOutcome env image_paths global_config overrides idx == ImageOutcome.ok)
      (List.range image_paths.length)
    have hcongr : (List.range image_paths.length).countP (fun idx =>
        itemOutcome env image_paths global_config overrides idx == ImageOutcome.err) =
      (List.range image_paths.length).countP (fun idx =>
        decide ¬(itemOutcome env image_paths global_config overrides idx ==
          ImageOutcome.ok) = true) := by
      apply List.countP_congr
      intro idx hidx
      have hne := hnp idx (hperm.mem_iff.mpr hidx)
      cases h : itemOutcome env image_paths global_config overrides idx
      · rfl
      · rfl
      · exact absurd h hne
    rw [hcongr]
    rw [List.length_range] at hsplit
    omega
  · exact (hperm.countP_eq _).symm ▸ rfl
  · exact (hperm.countP_eq _).symm ▸ rfl
  · intro idx hidx
    have hmem : idx ∈ schedule := hperm.mem_iff.mpr (List.mem_range.mpr hidx)
    rw [List.mem_flatten]
    exact ⟨_, List.mem_map_of_mem _ hmem, by simp⟩

/-- Witness for C1: a two-image batch with one decode failure, run in
reversed completion order, accounts one success and one failure. -/
theorem C1_batch_accounting_witness :
    ∃ processed failed events,
      batch_process ⟨true, fun p => if p = "a" then some ⟨4, 4⟩ else none,
          fun _ _ _ _ => true⟩ ["a", "b"]
        SplitConfig.default (fun _ => none) [1, 0] =
        (BatchResult.done processed failed, events) ∧
      processed + failed = (["a", "b"] : List String).length ∧
      processed = (List.range (["a", "b"] : List String).length).countP (fun idx =>
        itemOutcome ⟨true, fun p => if p = "a" then some ⟨4, 4⟩ else none,
          fun _ _ _ _ => true⟩ ["a", "b"] SplitConfig.default (fun _ => none) idx ==
          ImageOutcome.ok) ∧
      failed = (List.range (["a", "b"] : List String).length).countP (fun idx =>
        itemOutcome ⟨true, fun p => if p = "a" then some ⟨4, 4⟩ else none,
          fun _ _ _ _ => true⟩ ["a", "b"] SplitConfig.default (fun _ => none) idx ==
          ImageOutcome.err) ∧
      (∀ idx < (["a", "b"] : List String).length,
        Event.progress (idx + 1) (["a", "b"] : List String).length ∈ events) :=
  C1_batch_accounting ⟨true, fun p => if p = "a" then some ⟨4, 4⟩ else none,
      fun _ _ _ _ => true⟩ ["a", "b"] SplitConfig.default (fun _ => none) [1, 0]
    rfl (by decide) (by decide)

/-- The progress calls of a no-panic batch trace are exactly the schedule
entries shifted by one, paired with the total. -/
theorem progressCalls_flatten (env : Env) (image_paths : List String)
    (global_config : SplitConfig) (overrides : Nat → Option SplitConfig) :
    ∀ schedule : List Nat,
      progressCalls ((schedule.map (fun idx =>
        (process_single_image env (image_paths.getD idx "")
          (resolveConfig overrides global_config idx)).2 ++
        [Event.progress (idx + 1) image_paths.length])).flatten) =
      schedule.map (fun idx => (idx + 1, image_paths.length))
  | [] => rfl
  | idx :: rest => by
    rw [List.map_cons, List.flatten_cons, progressCalls_append, progressCalls_append,
      progressCalls_process, progressCalls_flatten env image_paths global_config
        overrides rest, List.map_cons]
    rfl

/-- C4 (amended): the progress callback fires exactly once per image with
second argument the total; its first arguments are the completing item
indices plus one, a permutation of 1..N, monotonically increasing when the
items complete in input order; a parallel completion order need not be
monotone. -/
theorem C4_progress_reporting (env : Env) (image_paths : List String)
    (global_config : SplitConfig) (overrides : Nat → Option SplitConfig)
    (schedule : List Nat) (hdir : env.createDirOk = true)
    (hperm : schedule.Perm (List.range image_paths.length))
    (hnp : ∀ idx ∈ schedule,
      itemOutcome env image_paths global_config overrides idx ≠ ImageOutcome.panicked) :
    ∃ result events,
      batch_process env image_paths global_config overrides schedule = (result, events) ∧
      progressCalls events = schedule.map (fun idx => (idx + 1, image_paths.length)) ∧
      (progressCalls events).length = image_paths.length ∧
      (∀ call ∈ progressCalls events, call.2 = image_paths.length) ∧
      ((progressCalls events).map Prod.fst).Perm
        ((List.range image_paths.length).map (fun idx => idx + 1)) ∧
      (schedule = List.range image_paths.length →
        ((progressCalls events).map Prod.fst).Pairwise (· < ·)) := by
  rw [batch_process_run env image_paths global_config overrides schedule hdir hnp]
  have hpc := progressCalls_flatten env image_paths global_config overrides schedule
  refine ⟨_, _, rfl, hpc, ?_, ?_, ?_, ?_⟩
  · rw [hpc, List.length_map, hperm.length_eq, List.length_range]
  · rw [hpc]
    intro call hcall
    rw [List.mem_map] at hcall
    obtain ⟨idx, _, rfl⟩ := hcall
    rfl
  · rw [hpc, List.map_map]
    exact hperm.map _
  · intro hsched
    rw [hpc, hsched, List.map_map, List.pairwise_map]
    exact (List.pairwise_lt_range _).imp (fun hab => Nat.succ_lt_succ hab)

/-- Witness for the amended C4 at a concrete in-order batch. -/
theorem C4_progress_reporting_witness :
    ∃ result events,
      batch_process ⟨true, fun _ => some ⟨4, 4⟩, fun _ _ _ _ => true⟩ ["a", "b"]
        SplitConfig.default (fun _ => none) (List.range 2) = (result, events) ∧
      progressCalls events =
        (List.range 2).map (fun idx => (idx + 1, (["a", "b"] : List String).length)) ∧
      (progressCalls events).length = (["a", "b"] : List String).length ∧
      (∀ call ∈ progressCalls events, call.2 = (["a", "b"] : List String).length) ∧
      ((progressCalls events).map Prod.fst).Perm
        ((List.range (["a", "b"] : List String).length).map (fun idx => idx + 1)) ∧
      (List.range 2 = List.range (["a", "b"] : List String).length →
        ((progressCalls events).map Prod.fst).Pairwise (· < ·)) :=
  C4_progress_reporting ⟨true, fun _ => some ⟨4, 4⟩, fun _ _ _ _ => true⟩ ["a", "b"]
    SplitConfig.default (fun _ => none) (List.range 2) rfl (by decide) (by decide)

/-- Counterexample to C4 as stated: with two images completing in the
order 1, 0 the callback receives (2, 2) and then (1, 2); the first
components are the item indices plus one, not a monotonically increasing
completed count. -/
theorem C4_counterexample_not_monotone :
    [1, 0].Perm (List.range 2) ∧
    (progressCalls (batch_process ⟨true, fun _ => some ⟨4, 4⟩, fun _ _ _ _ => true⟩
        ["a", "b"] SplitConfig.default (fun _ => none) [1, 0]).2).map Prod.fst = [2, 1] ∧
    ¬ ((progressCalls (batch_process ⟨true, fun _ => some ⟨4, 4⟩, fun _ _ _ _ => true⟩
        ["a", "b"] SplitConfig.default (fun _ => none) [1, 0]).2).map Prod.fst).Pairwise
      (· < ·) :=
  ⟨by decide, by decide, by decide⟩

/-- The output of the descending sort is sorted non-increasing. -/
theorem sortDesc_sorted (idxs : List Nat) : (sortDesc idxs).Pairwise (· ≥ ·) :=
  List.sorted_insertionSort _ idxs

/-- The descending sort permutes its input. -/
theorem sortDesc_perm (idxs : List Nat) : (sortDesc idxs).Perm idxs :=
  List.perm_insertionSort _ idxs

/-- On distinct indices the descending sort is strictly decreasing. -/
theorem sortDesc_strict (idxs : List Nat) (h : idxs.Nodup) :
    (sortDesc idxs).Pairwise (· > ·) := by
  have hs := sortDesc_sorted idxs
  have hn : (sortDesc idxs).Nodup := ((sortDesc_perm idxs).nodup_iff).mpr h
  exact (hs.and hn).imp (fun hab => lt_of_le_of_ne hab.1 (Ne.symm hab.2))

/-- Folding eraseIdx over strictly descending in-bounds indices removes
exactly the elements at those original positions. -/
theorem foldl_eraseIdx_eq_filter :
    ∀ (idxs : List Nat) (lines : List ℚ),
      idxs.Pairwise (· > ·) → (∀ i ∈ idxs, i < lines.length) →
      idxs.foldl (fun ls idx => if idx < ls.length then ls.eraseIdx idx else ls) lines =
        (lines.enum.filter (fun p => decide (p.1 ∉ idxs))).map Prod.snd
  | [], lines, _, _ => by simp
  | i :: rest, lines, hsort, hb => by
    have hilen : i < lines.length := hb i (List.mem_cons_self i rest)
    have hrest : ∀ j ∈ rest, j < i := fun j hj => (List.pairwise_cons.mp hsort).1 j hj
    have hAlen : (lines.take i).length = i := by
      rw [List.length_take]
      omega
    have hlen2 : ∀ j ∈ rest, j < (lines.eraseIdx i).length := by
      intro j hj
      rw [List.length_eraseIdx]
      have := hrest j hj
      simp only [hilen, if_pos]
      omega
    rw [List.foldl_cons, if_pos hilen,
      foldl_eraseIdx_eq_filter rest (lines.eraseIdx i) (List.pairwise_cons.mp hsort).2 hlen2]
    have henum1 : (lines.eraseIdx i).enum =
        (lines.take i).enum ++ (lines.drop (i + 1)).enumFrom i := by
      rw [List.eraseIdx_eq_take_drop_succ, List.enum_append, hAlen]
    have henum2 : lines.enum =
        (lines.take i).enum ++
          ((i, lines.get ⟨i, hilen⟩) :: (lines.drop (i + 1)).enumFrom (i + 1)) := by
      conv_lhs => rw [← List.take_append_drop i lines]
      rw [List.enum_append, hAlen, List.drop_eq_getElem_cons hilen, List.enumFrom_cons]
      rfl
    rw [henum1, henum2, List.filter_append, List.filter_append, List.map_append,
      List.map_append]
    congr 1
    · refine congrArg _ (List.filter_congr ?_)
      intro x hx
      have hxlt : x.1 < i := by
        have h1 := List.fst_lt_add_of_mem_enumFrom
          (show x ∈ (lines.take i).enumFrom 0 from hx)
        rw [hAlen] at h1
        omega
      simp only [decide_eq_decide, List.mem_cons]
      constructor
      · intro hni hmem
        rcases hmem with h | h
        · omega
        · exact hni h
      · intro hni h
        exact hni (Or.inr h)
    · have hL : ((lines.drop (i + 1)).enumFrom i).filter
          (fun p => decide (p.1 ∉ rest)) = (lines.drop (i + 1)).enumFrom i := by
        rw [List.filter_eq_self]
        intro x hx
        have h1 := List.le_fst_of_mem_enumFrom hx
        simp only [decide_eq_true_eq]
        intro hmem
        exact absurd (hrest _ hmem) (by omega)
      have hR : ((i, lines.get ⟨i, hilen⟩) ::
          (lines.drop (i + 1)).enumFrom (i + 1)).filter
            (fun p => decide (p.1 ∉ i :: rest)) =
          ((lines.drop (i + 1)).enumFrom (i + 1)).filter
            (fun p => decide (p.1 ∉ i :: rest)) := by
        rw [List.filter_cons]
        simp
      have hR2 : (((lines.drop (i + 1)).enumFrom (i + 1)).filter
          (fun p => decide (p.1 ∉ i :: rest))) =
          (lines.drop (i + 1)).enumFrom (i + 1) := by
        rw [List.filter_eq_self]
        intro x hx
        have h1 := List.le_fst_of_mem_enumFrom hx
        simp only [decide_eq_true_eq, List.mem_cons]
        intro hmem
        rcases hmem with h | h
        · omega
        · exact absurd (hrest _ h) (by omega)
      rw [hL, hR, hR2]
      simp

/-- The delete loop on one kind equals keeping the non-selected indices. -/
theorem removeLines_eq_keepNotIn (lines : List ℚ) (idxs : List Nat)
    (hnd : idxs.Nodup) (hb : ∀ i ∈ idxs, i < lines.length) :
    removeLines lines idxs = keepNotIn lines idxs := by
  rw [removeLines, keepNotIn]
  have hperm := sortDesc_perm idxs
  have hpred : (fun p : Nat × ℚ => decide (p.1 ∉ idxs)) =
      (fun p : Nat × ℚ => decide (p.1 ∉ sortDesc idxs)) := by
    funext p
    simp [hperm.mem_iff]
  rw [hpred]
  exact foldl_eraseIdx_eq_filter (sortDesc idxs) lines (sortDesc_strict idxs hnd)
    (fun i hi => hb i (hperm.subset hi))

/-- C9: deleting a set of distinct in-bounds selected line indices
processes each kind in descending order, produces exactly the original
lines minus the selected original positions, and recomputes the row and
column counts as length + 1. -/
theorem C9_delete_selected_lines (config : SplitConfig) (h_sel v_sel : List Nat)
    (hh : h_sel.Nodup) (hhb : ∀ i ∈ h_sel, i < config.h_lines.length)
    (hv : v_sel.Nodup) (hvb : ∀ i ∈ v_sel, i < config.v_lines.length) :
    (sortDesc h_sel).Pairwise (· ≥ ·) ∧ (sortDesc v_sel).Pairwise (· ≥ ·) ∧
    delete_selected_lines config h_sel v_sel =
      { rows := (keepNotIn config.h_lines h_sel).length + 1,
        cols := (keepNotIn config.v_lines v_sel).length + 1,
        h_lines := keepNotIn config.h_lines h_sel,
        v_lines := keepNotIn config.v_lines v_sel } := by
  refine ⟨sortDesc_sorted h_sel, sortDesc_sorted v_sel, ?_⟩
  rw [delete_selected_lines, removeLines_eq_keepNotIn config.h_lines h_sel hh hhb,
    removeLines_eq_keepNotIn config.v_lines v_sel hv hvb]

/-- Witness for C9: deleting indices 0 and 2 of three horizontal lines and
index 1 of two vertical lines. -/
theorem C9_delete_selected_lines_witness :
    (sortDesc [0, 2]).Pairwise (· ≥ ·) ∧ (sortDesc [1]).Pairwise (· ≥ ·) ∧
    delete_selected_lines
        ⟨4, 3, [mkRat 1 4, mkRat 2 4, mkRat 3 4], [mkRat 1 3, mkRat 2 3]⟩ [0, 2] [1] =
      { rows := (keepNotIn [mkRat 1 4, mkRat 2 4, mkRat 3 4] [0, 2]).length + 1,
        cols := (keepNotIn [mkRat 1 3, mkRat 2 3] [1]).length + 1,
        h_lines := keepNotIn [mkRat 1 4, mkRat 2 4, mkRat 3 4] [0, 2],
        v_lines := keepNotIn [mkRat 1 3, mkRat 2 3] [1] } :=
  C9_delete_selected_lines
    ⟨4, 3, [mkRat 1 4, mkRat 2 4, mkRat 3 4], [mkRat 1 3, mkRat 2 3]⟩ [0, 2] [1]
    (by decide) (by decide) (by decide) (by decide)
